import Mathlib

/-!
Shallow embedding of the columnar scan operator and companion services of the
repository (Parquet scan planner and executor, local object store, flight
streaming service), together with theorems settling the specification claims.

Machine integers of the source are modelled as `Nat`/`Int`; fallible Rust code
is modelled with `Option`/`Except`, where `none` marks a Rust panic; atomic
metric counters are modelled as plain `Nat` fields threaded through state.
-/

/-! ## Chunking of the file list (`split_files`, `ParquetExec::try_new`)

`slice::chunks(chunk_size)` of Rust: contiguous chunks of `chunk_size`
elements, the last chunk possibly shorter.  Rust panics when `chunk_size = 0`;
callers below guard that case with `Option`.  The fuel argument makes the
recursion structural; `chunksList` instantiates the fuel with the list length,
which always suffices. -/

def chunksGo (k : Nat) : Nat → List α → List (List α)
  | 0, _ => []
  | _ + 1, [] => []
  | fuel + 1, a :: l => ((a :: l).take k) :: chunksGo k fuel ((a :: l).drop k)

/-- Rust `slice::chunks(k)` for `k ≠ 0`, as a total function on lists. -/
def chunksList (k : Nat) (l : List α) : List (List α) :=
  chunksGo k l.length l

/-- Embeds `split_files` (physical_plan/parquet.rs): `chunk_size` is
`filenames.len() / n`, incremented when the division has a remainder; `none`
models the Rust panics (division by zero for `n = 0`, `chunks(0)` for an empty
file list). -/
def split_files (filenames : List String) (n : Nat) : Option (List (List String)) :=
  if n = 0 then none
  else
    let chunk_size := filenames.length / n + (if filenames.length % n > 0 then 1 else 0)
    if chunk_size = 0 then none
    else some (chunksList chunk_size filenames)

/-- Embeds the partition-construction fragment of `ParquetExec::try_new`
(lines 162-170): the same chunk-size computation followed by
`all_files.chunks(chunk_size)`.  `none` models the Rust panics of
division by zero and of `chunks(0)`. -/
def tryNewPartitions (all_files : List String) (max_concurrency : Nat) :
    Option (List (List String)) :=
  if max_concurrency = 0 then none
  else
    let chunk_size := all_files.length / max_concurrency +
      (if all_files.length % max_concurrency > 0 then 1 else 0)
    if chunk_size = 0 then none
    else some (chunksList chunk_size all_files)

/-- Embeds the partition-selection step of `ParquetExec::execute`:
`self.partitions[partition]` indexes the partition vector without a bounds
check, so an out-of-range index is a Rust panic, modelled by `none`. -/
def executePartition (partitions : List (List String)) (i : Nat) :
    Option (List String) :=
  partitions.get? i

/-! ## Local object store: `FileSegmentReader` (datasource/local.rs)

A file handle shares its cursor with every `try_clone`; `BufReader::new`
preserves that cursor.  `FileSegmentReader::new` seeks by
`SeekFrom::Current(start)`, so the resulting position is `cursor + start`,
and the `Read` implementation delegates unboundedly to the inner reader,
never consulting the stored `length`. -/

structure FileHandle where
  content : List Nat
  cursor : Nat
  deriving DecidableEq

structure FileSegmentReader where
  pos : Nat
  length : Nat
  deriving DecidableEq

/-- Embeds `FileSegmentReader::new(file, start, length)`: the seek is relative
to the file's current cursor (`SeekFrom::Current`), and its result is
discarded. -/
def fileSegmentReader_new (file : FileHandle) (start : Nat) (length : Nat) :
    FileSegmentReader :=
  { pos := file.cursor + start, length := length }

/-- The bytes obtainable from the segment reader by reading to exhaustion:
its `read` delegates to the inner buffered reader, so it yields every byte
from the seek position to end of file, ignoring `length`. -/
def segmentBytes (file : FileHandle) (r : FileSegmentReader) : List Nat :=
  file.content.drop r.pos

/-- Modelled from the spec: `segment(start, length)` produces a byte stream
positioned at absolute offset `start` (seek-from-start) bounded to `length`
bytes. -/
def segmentSpec (content : List Nat) (start length : Nat) : List Nat :=
  (content.drop start).take length

/-! ## Scalar values and datasource statistics -/

/-- The scalar tagged union of the engine, restricted to the variants the
scan subsystem produces.  Float statistics are only copied, never computed
with, so 32- and 64-bit float payloads are carried as their raw bit
patterns. -/
inductive ScalarValue where
  | boolean (v : Option Bool)
  | int32 (v : Option Int)
  | int64 (v : Option Int)
  | float32 (bits : Option Nat)
  | float64 (bits : Option Nat)
  | utf8 (v : Option String)
  deriving DecidableEq

/-- Arrow data types occurring in scan schemas; `unsupported` stands for any
type that has no scalar representation. -/
inductive DataType where
  | boolean
  | int32
  | int64
  | float32
  | float64
  | utf8
  | unsupported
  deriving DecidableEq

/-- `DataType::try_into() -> Result<ScalarValue>`: the typed null scalar of a
data type, `none` when the engine has no scalar representation for it. -/
def dataTypeNullScalar : DataType → Option ScalarValue
  | .boolean => some (.boolean none)
  | .int32 => some (.int32 none)
  | .int64 => some (.int64 none)
  | .float32 => some (.float32 none)
  | .float64 => some (.float64 none)
  | .utf8 => some (.utf8 none)
  | .unsupported => none

structure SchemaField where
  name : String
  dataType : DataType
  deriving DecidableEq

abbrev Schema := List SchemaField

/-- Arrow `Schema::column_with_name`: index and field of the first column with
the given name. -/
def column_with_name : Schema → String → Option (Nat × SchemaField)
  | [], _ => none
  | f :: rest, nm =>
    if f.name = nm then some (0, f)
    else (column_with_name rest nm).map (fun p => (p.1 + 1, p.2))

/-- Per-column datasource statistics (datasource.rs `ColumnStatistics`). -/
structure ColumnStatistics where
  null_count : Option Nat
  max_value : Option ScalarValue
  min_value : Option ScalarValue
  distinct_count : Option Nat
  deriving DecidableEq, Inhabited

/-- Datasource-level statistics (datasource.rs `Statistics`). -/
structure Statistics where
  num_rows : Option Nat
  total_byte_size : Option Nat
  column_statistics : Option (List ColumnStatistics)
  deriving DecidableEq

/-- Embeds the projection loop of `ParquetExec::new` (lines 229-231): each
iteration calls `Option::map` on the owned option and discards the produced
value (`new_column_statistics.map(|mut x| x.push(column_stats[proj].clone()))`),
so under value semantics the accumulator never changes. -/
def pushDiscarded (column_stats : List ColumnStatistics) :
    List Nat → Option (List ColumnStatistics) → Option (List ColumnStatistics)
  | [], acc => acc
  | proj :: rest, acc =>
    let _discarded := acc.map (fun x => x ++ [column_stats.getD proj default])
    pushDiscarded column_stats rest acc

/-- Embeds the statistics-projection fragment of `ParquetExec::new`
(lines 225-238): starts from `Some(Vec::with_capacity(..))`, runs the
discarding push loop, and rebuilds `Statistics` with `num_rows` and
`total_byte_size` unchanged. -/
def parquetExecNew_statistics (statistics : Statistics) (projection : List Nat) :
    Statistics :=
  let new_column_statistics : Option (List ColumnStatistics) :=
    match statistics.column_statistics with
    | some column_stats => pushDiscarded column_stats projection (some [])
    | none => none
  { num_rows := statistics.num_rows
    total_byte_size := statistics.total_byte_size
    column_statistics := new_column_statistics }

/-- Modelled from the spec: projected column statistics are the source column
statistics indexed by the projection list, preserving projection order. -/
def specProjectedColumnStats (column_stats : List ColumnStatistics)
    (projection : List Nat) : List ColumnStatistics :=
  projection.map (fun proj => column_stats.getD proj default)

/-! ## Parquet row-group statistics and the pruning statistics adapter -/

/-- Min/max payload of one parquet `Statistics` object: the flag mirrors
`has_min_max_set()`, and the payloads are meaningful only when the flag is
set (the source consults them only after checking the flag). -/
structure StatValues (α : Type) where
  has_min_max_set : Bool
  minV : α
  maxV : α
  deriving DecidableEq

/-- Parquet per-column-chunk statistics, by physical type.  Byte-array
min/max payloads are carried as the result of `std::str::from_utf8(..).ok()`
on their bytes: `some s` for valid UTF-8, `none` for invalid bytes.  Int96
and fixed-length byte-array payloads are never read by the source, so they
carry no data. -/
inductive ParquetStatistics where
  | boolean (s : StatValues Bool)
  | int32 (s : StatValues Int)
  | int64 (s : StatValues Int)
  | int96 (s : StatValues Unit)
  | float (s : StatValues Nat)
  | double (s : StatValues Nat)
  | byteArray (s : StatValues (Option String))
  | fixedLenByteArray (s : StatValues Unit)
  deriving DecidableEq

def ParquetStatistics.hasMinMaxSet : ParquetStatistics → Bool
  | .boolean s => s.has_min_max_set
  | .int32 s => s.has_min_max_set
  | .int64 s => s.has_min_max_set
  | .int96 s => s.has_min_max_set
  | .float s => s.has_min_max_set
  | .double s => s.has_min_max_set
  | .byteArray s => s.has_min_max_set
  | .fixedLenByteArray s => s.has_min_max_set

/-- Which of the two statistics the caller extracts (`min`/`min_bytes` versus
`max`/`max_bytes`). -/
inductive MinOrMax where
  | minStat
  | maxStat
  deriving DecidableEq

def StatValues.pick (w : MinOrMax) (s : StatValues α) : α :=
  match w with
  | .minStat => s.minV
  | .maxStat => s.maxV

/-- Embeds the `get_statistic!` macro: `None` without min/max, `None` for
Int96 and FixedLenByteArray, the typed scalar otherwise; byte arrays become
`Utf8` with the lossy `ok()` fallback. -/
def get_statistic (stats : ParquetStatistics) (w : MinOrMax) : Option ScalarValue :=
  if stats.hasMinMaxSet = false then none
  else
    match stats with
    | .boolean s => some (.boolean (some (s.pick w)))
    | .int32 s => some (.int32 (some (s.pick w)))
    | .int64 s => some (.int64 (some (s.pick w)))
    | .int96 _ => none
    | .float s => some (.float32 (some (s.pick w)))
    | .double s => some (.float64 (some (s.pick w)))
    | .byteArray s => some (.utf8 (s.pick w))
    | .fixedLenByteArray _ => none

/-- Row-group metadata: per column-chunk, the optional parquet statistics
(`meta.column(i).statistics()`). -/
structure RowGroupMetaData where
  columns : List (Option ParquetStatistics)
  deriving DecidableEq

/-- `meta.column(column_index).statistics()`. -/
def RowGroupMetaData.columnStats (m : RowGroupMetaData) (i : Nat) :
    Option ParquetStatistics :=
  m.columns.getD i none

/-- Type tag used to detect mixed-type scalar sequences. -/
def ScalarValue.kind : ScalarValue → Nat
  | .boolean _ => 0
  | .int32 _ => 1
  | .int64 _ => 2
  | .float32 _ => 3
  | .float64 _ => 4
  | .utf8 _ => 5

/-- Modelled from the spec (the scalar module is outside the source slice):
fold the scalar sequence into a typed array, `none` on a type mismatch; the
source library also errors on an empty sequence. -/
def iter_to_array (l : List ScalarValue) : Option (List ScalarValue) :=
  match l with
  | [] => none
  | s :: rest =>
    if rest.all (fun t => t.kind = s.kind) then some (s :: rest) else none

/-- Embeds the `get_min_max_values!` macro of `RowGroupPruningStatistics`:
resolve the column, derive the typed null scalar, then build the scalar
sequence.  The source iterates
`row_group_metadata.iter().flat_map(|meta| meta.column(i).statistics())`,
so row groups whose per-column statistics are absent are dropped (the
`flat_map` over `Option` skips `None`) before the `unwrap_or(null)` step. -/
def get_min_max_values (row_group_metadata : List RowGroupMetaData)
    (parquet_schema : Schema) (column : String) (w : MinOrMax) :
    Option (List ScalarValue) :=
  match column_with_name parquet_schema column with
  | none => none
  | some (column_index, field) =>
    match dataTypeNullScalar field.dataType with
    | none => none
    | some null_scalar =>
      let scalar_values :=
        ((row_group_metadata.filterMap (fun meta => meta.columnStats column_index)).map
          (fun stats => (get_statistic stats w).getD null_scalar))
      iter_to_array scalar_values

/-- `PruningStatistics::num_containers` of the adapter. -/
def num_containers (row_group_metadata : List RowGroupMetaData) : Nat :=
  row_group_metadata.length

/-! ## Row-group predicate builder -/

/-- The two per-partition metric counters, as plain naturals
(`SQLMetric::add` is modelled by addition). -/
structure ParquetPartitionMetrics where
  predicate_evaluation_errors : Nat
  row_groups_pruned : Nat
  deriving DecidableEq

/-- Embeds `build_row_group_predicate`, abstracted over the outcome of
`predicate_builder.prune(..)` (the pruning engine is outside the source
slice).  On success it counts the `false` entries into `row_groups_pruned`
and closes over the vector (`values[i]`; indexing past the end is a Rust
panic, and the claim only constrains indices below the vector length); on
error it bumps `predicate_evaluation_errors` and keeps every row group. -/
def build_row_group_predicate (predicate_values : Except String (List Bool))
    (metrics : ParquetPartitionMetrics) :
    ParquetPartitionMetrics × (RowGroupMetaData → Nat → Bool) :=
  match predicate_values with
  | .ok values =>
    let num_pruned := (values.filter (fun v => !v)).length
    ({ metrics with row_groups_pruned := metrics.row_groups_pruned + num_pruned },
      fun _ i => values.getD i false)
  | .error _ =>
    ({ metrics with
        predicate_evaluation_errors := metrics.predicate_evaluation_errors + 1 },
      fun _ _ => true)

/-! ## The partition worker `read_files`

One partitioned file is modelled by its path and by what the object store
and the arrow reader produce for it: either an error while opening
(`get_reader` / `SerializedFileReader::new` /
`get_record_reader_by_columns`, all propagated with `?`), or the sequence
of batch results the record reader yields.  A record batch is modelled by
its row count, the only attribute the worker consults.  The channel is
assumed open (the consumer drains the stream), so `send_result` succeeds. -/

deriving instance DecidableEq for Except

structure PFile where
  path : String
  openResult : Except String (List (Except String Nat))
  deriving DecidableEq

/-- One item of the partition's record-batch stream. -/
inductive StreamItem where
  | ok (rows : Nat)
  | err (msg : String)
  deriving DecidableEq

/-- Outcome of the batch loop over one file. -/
inductive BatchOutcome where
  | done
  | limitHit
  | failed (msg : String)
  deriving DecidableEq

/-- `limit.map(|l| total_rows >= l).unwrap_or(false)`. -/
def limitReached (limit : Option Nat) (total_rows : Nat) : Bool :=
  match limit with
  | some l => decide (l ≤ total_rows)
  | none => false

/-- The error text `format!("Error reading batch from {}: {}", file, e)`
(the partitioned file displays as its path here). -/
def batchErrMsg (path e : String) : String :=
  "Error reading batch from " ++ path ++ ": " ++ e

/-- Embeds the inner batch loop of `read_files`: emit each decoded batch,
stop after the batch that reaches the limit, and on a decode error send the
wrapped error and fail. -/
def readBatches (limit : Option Nat) (path : String) :
    List (Except String Nat) → Nat → List StreamItem × Nat × BatchOutcome
  | [], total_rows => ([], total_rows, .done)
  | .ok batch :: rest, total_rows =>
    let total' := total_rows + batch
    if limitReached limit total' then ([.ok batch], total', .limitHit)
    else
      let r := readBatches limit path rest total'
      (.ok batch :: r.1, r.2)
  | .error e :: _, total_rows =>
    let m := batchErrMsg path e
    ([.err m], total_rows, .failed m)

/-- Embeds the outer file loop of `read_files`: open each file in order (an
open failure is propagated with `?`, sending nothing), run the batch loop,
and stop early when the limit was reached (`break 'outer`).  The first
component is the sequence of items sent into the channel, the second the
worker's return value. -/
def readFiles (limit : Option Nat) :
    List PFile → Nat → List StreamItem × Except String Unit
  | [], _ => ([], .ok ())
  | f :: rest, total_rows =>
    match f.openResult with
    | .error e => ([], .error e)
    | .ok batches =>
      match readBatches limit f.path batches total_rows with
      | (items, total', .done) =>
        let r := readFiles limit rest total'
        (items ++ r.1, r.2)
      | (items, _, .limitHit) => (items, .ok ())
      | (items, _, .failed m) => (items, .error m)

def StreamItem.rows : StreamItem → Nat
  | .ok n => n
  | .err _ => 0

/-- Total rows carried by a stream-item sequence. -/
def rowsOf (items : List StreamItem) : Nat :=
  (items.map StreamItem.rows).sum

/-- Rows observed across all partitions of a scan: every partition worker
runs `read_files` with the same scan-level `limit`. -/
def scanRows (partitions : List (List PFile)) (limit : Option Nat) : Nat :=
  (partitions.map (fun fs => rowsOf (readFiles limit fs 0).1)).sum

/-- Batch bound check for one reader result: every decoded batch carries at
most `B` rows (the arrow record reader yields batches of at most
`batch_size` rows). -/
def batchOk (B : Nat) : Except String Nat → Bool
  | .ok b => decide (b ≤ B)
  | .error _ => true

def fileBounded (B : Nat) (f : PFile) : Bool :=
  match f.openResult with
  | .error _ => true
  | .ok batches => batches.all (batchOk B)

def opensOk (files : List PFile) : Bool :=
  files.all (fun f => f.openResult.isOk)

/-! ## Local object store: recursive file listing (datasource/local.rs)

A directory subtree is modelled by a tree whose nodes carry a name (paths
are character lists so that suffix matching stays elementary), a flag for
UTF-8 validity of the name (`path.to_str()` succeeds exactly when it is
set), and a readability flag (`metadata` on the root and `read_dir` on a
directory fail exactly when it is cleared).  File entries inside a
directory are never `stat`-ed by the source (`path.is_dir()` is merely
false), so only their name flags matter there. -/

mutual
inductive FsTree where
  | file (name : List Char) (utf8 : Bool) (readable : Bool)
  | dir (name : List Char) (utf8 : Bool) (readable : Bool) (entries : FsForest)
inductive FsForest where
  | nil
  | cons (head : FsTree) (tail : FsForest)
end

inductive FsError where
  | ioErr
  | invalidPath
  deriving DecidableEq

def FsTree.nameOf : FsTree → List Char
  | .file n _ _ => n
  | .dir n _ _ _ => n

def FsTree.utf8Of : FsTree → Bool
  | .file _ u _ => u
  | .dir _ u _ _ => u

mutual
/-- Embeds `list_all_files(dir, filenames, ext)` in result-passing style:
an unreadable root or directory fails with an IO error, a root file is
listed when its path ends with the extension, and a directory's entries are
walked in order, failing with `InvalidPath` at the first non-UTF-8 path. -/
def listAllFiles (ext : List Char) : FsTree → List Char → Except FsError (List (List Char))
  | .file _ _ readable, path =>
    if readable = false then .error .ioErr
    else if ext.isSuffixOf path then .ok [path] else .ok []
  | .dir _ _ readable entries, path =>
    if readable = false then .error .ioErr
    else listDirEntries ext entries path
/-- The `for entry in fs::read_dir(dir)?` loop body: build the entry path,
fail on a non-UTF-8 path, recurse into directories, and collect file paths
that end with the extension. -/
def listDirEntries (ext : List Char) : FsForest → List Char → Except FsError (List (List Char))
  | .nil, _ => .ok []
  | .cons e rest, path =>
    let childPath := path ++ '/' :: e.nameOf
    if e.utf8Of = false then .error .invalidPath
    else
      match e with
      | .file _ _ _ =>
        if ext.isSuffixOf childPath then
          (listDirEntries ext rest path).map (fun l => childPath :: l)
        else listDirEntries ext rest path
      | .dir _ _ _ _ =>
        match listAllFiles ext e childPath with
        | .error er => .error er
        | .ok l => (listDirEntries ext rest path).map (fun l2 => l ++ l2)
end

mutual
/-- The paths the walk is meant to collect: every file of the subtree whose
path ends with the extension, in traversal order. -/
def matchingFiles (ext : List Char) : FsTree → List Char → List (List Char)
  | .file _ _ _, path => if ext.isSuffixOf path then [path] else []
  | .dir _ _ _ entries, path => matchingForest ext entries path
def matchingForest (ext : List Char) : FsForest → List Char → List (List Char)
  | .nil, _ => []
  | .cons e rest, path =>
    matchingFiles ext e (path ++ '/' :: e.nameOf) ++ matchingForest ext rest path
end

mutual
/-- No IO fault is reachable: the root is readable and so is every
directory below it (nested file readability is never consulted). -/
def ioClean : FsTree → Bool
  | .file _ _ r => r
  | .dir _ _ r es => r && ioCleanF es
def ioCleanF : FsForest → Bool
  | .nil => true
  | .cons (.file _ _ _) rest => ioCleanF rest
  | .cons (e@(.dir _ _ _ _)) rest => ioClean e && ioCleanF rest
end

mutual
/-- Every entry strictly below this node has a UTF-8 name (the root is
addressed by a string argument, so its own flag is irrelevant). -/
def subUtf8 : FsTree → Bool
  | .file _ _ _ => true
  | .dir _ _ _ es => subUtf8F es
def subUtf8F : FsForest → Bool
  | .nil => true
  | .cons e rest => e.utf8Of && subUtf8 e && subUtf8F rest
end

/-! ## Flight streaming service (ballista executor flight_service.rs)

A record batch is modelled by its serialized flight form: the dictionary
payloads `serialize_batch` produces for it and its single batch payload.
A persisted partition file is its schema payload plus the sequence of
batch read results its `FileReader` yields. -/

structure FlightRecordBatch where
  numRows : Nat
  dictPayloads : List Nat
  payload : Nat
  deriving DecidableEq

inductive FlightData where
  | schemaMsg (s : Nat)
  | dictMsg (d : Nat)
  | batchMsg (b : Nat)
  deriving DecidableEq

/-- `arrow::io::flight::serialize_batch`: the dictionary frames and the
record-batch frame of one batch. -/
def serialize_batch (b : FlightRecordBatch) : List FlightData × FlightData :=
  (b.dictPayloads.map .dictMsg, .batchMsg b.payload)

/-- Embeds `create_flight_iter`: the batch's dictionary frames chained with
its single record-batch frame. -/
def create_flight_iter (b : FlightRecordBatch) : List FlightData :=
  let r := serialize_batch b
  r.1 ++ [r.2]

structure IpcFile where
  schema : Nat
  batches : List (Except String FlightRecordBatch)
  deriving DecidableEq

/-- Embeds the `for batch in reader` loop of `stream_flight_data`: frames of
each successfully decoded batch are sent in order; the first decode error
stops the loop with an error after sending nothing for that batch. -/
def streamBatchFrames :
    List (Except String FlightRecordBatch) → List FlightData × Except String Unit
  | [] => ([], .ok ())
  | .ok b :: rest =>
    let r := streamBatchFrames rest
    (create_flight_iter b ++ r.1, r.2)
  | .error e :: _ => ([], .error ("ArrowError: " ++ e))

/-- Embeds `stream_flight_data` for a file that opened and parsed: one
schema frame first, then the batch frames; the second component is the
task's return value. -/
def stream_flight_data (file : IpcFile) : List FlightData × Except String Unit :=
  let r := streamBatchFrames file.batches
  (FlightData.schemaMsg file.schema :: r.1, r.2)

def FlightData.isSchemaMsg : FlightData → Bool
  | .schemaMsg _ => true
  | _ => false

/-- The batches before the first decode error (all of them when none errs). -/
def okBatches (l : List (Except String FlightRecordBatch)) : List FlightRecordBatch :=
  (l.takeWhile Except.isOk).filterMap Except.toOption

/-! ## Concrete instances used by counterexamples and witnesses -/

/-- Two-row-group metadata: the first row group carries no per-column
statistics at all, the second carries Int32 statistics with min 1 and
max 10. -/
def rgNoStats : RowGroupMetaData := ⟨[none]⟩

def rgInt32Stats : RowGroupMetaData :=
  ⟨[some (.int32 { has_min_max_set := true, minV := 1, maxV := 10 })]⟩

def demoParquetSchema : Schema := [{ name := "c1", dataType := .int32 }]

def demoFileA : FileHandle := { content := [10, 11, 12, 13], cursor := 2 }

def demoFileB : FileHandle := { content := [1, 2, 3], cursor := 0 }

def demoCS0 : ColumnStatistics :=
  { null_count := some 0, max_value := none, min_value := none, distinct_count := none }

def demoCS1 : ColumnStatistics :=
  { null_count := some 1, max_value := none, min_value := none, distinct_count := none }

def demoSourceStats : Statistics :=
  { num_rows := some 10, total_byte_size := some 100,
    column_statistics := some [demoCS0, demoCS1] }

/-- One partitioned file whose reader yields a single one-row batch. -/
def pfOneRow : PFile := { path := "f1", openResult := .ok [.ok 1] }

/-- A partitioned file whose object-store open fails. -/
def pfOpenErr : PFile := { path := "g", openResult := .error "open failed" }

/-- A partitioned file with one good batch followed by a decode error. -/
def pfBadBatch : PFile := { path := "p", openResult := .ok [.ok 2, .error "bad"] }

def demo5 : List String := ["a", "b", "c", "d", "e"]

/-! ## Theorems -/

/-- C1.  The pruning statistics adapter drops row groups whose per-column
statistics are absent instead of emitting the null scalar for them: on a
schema holding Int32 column `c1` and two row groups, the first without
statistics, `min_values` returns an array of length 1 while
`num_containers` is 2, so the claimed length equality with per-row-group
null entries fails (the source's own comment next to `unwrap_or_else`
expects the absent-statistics case to reach the null scalar, but the
`flat_map` over `Option` has already removed it). -/
theorem minValues_drops_rowgroups_without_statistics :
    get_min_max_values [rgNoStats, rgInt32Stats] demoParquetSchema "c1" .minStat
        = some [.int32 (some 1)] ∧
    (get_min_max_values [rgNoStats, rgInt32Stats] demoParquetSchema "c1" .minStat).map
        List.length = some 1 ∧
    num_containers [rgNoStats, rgInt32Stats] = 2 ∧
    (get_min_max_values [rgNoStats, rgInt32Stats] demoParquetSchema "c1" .minStat).map
        List.length ≠ some (num_containers [rgNoStats, rgInt32Stats]) := by
  refine ⟨rfl, rfl, rfl, ?_⟩
  decide

/-- C7.  The file-segment reader seeks relative to the file's current cursor
and ignores the requested length: on file bytes `[10,11,12,13]` with cursor
2, `segment(start := 1, length := 1)` reads `[13]` where the specified
behavior (seek-from-start, bounded) yields `[11]`; and on `[1,2,3]` with
cursor 0, `segment(0, 2)` yields all 3 bytes, exceeding the bound 2. -/
theorem fileSegmentReader_seeks_from_current_and_ignores_length :
    segmentBytes demoFileA (fileSegmentReader_new demoFileA 1 1) = [13] ∧
    segmentSpec demoFileA.content 1 1 = [11] ∧
    segmentBytes demoFileA (fileSegmentReader_new demoFileA 1 1)
      ≠ segmentSpec demoFileA.content 1 1 ∧
    (segmentBytes demoFileB (fileSegmentReader_new demoFileB 0 2)).length = 3 ∧
    ¬ (segmentBytes demoFileB (fileSegmentReader_new demoFileB 0 2)).length ≤ 2 := by
  refine ⟨rfl, rfl, ?_, rfl, ?_⟩ <;> decide

/-- C9.  The projected column statistics of `ParquetExec::new` are not the
source statistics indexed by the projection list: the push loop maps over
the owned option and discards the result, so on source column statistics
`[demoCS0, demoCS1]` with projection `[1]` the constructed scan carries
`Some([])` instead of `Some([demoCS1])`; `num_rows` and `total_byte_size`
are unchanged as claimed. -/
theorem parquetExecNew_discards_projected_column_statistics :
    (parquetExecNew_statistics demoSourceStats [1]).column_statistics = some [] ∧
    specProjectedColumnStats [demoCS0, demoCS1] [1] = [demoCS1] ∧
    (parquetExecNew_statistics demoSourceStats [1]).column_statistics
      ≠ some (specProjectedColumnStats [demoCS0, demoCS1] [1]) ∧
    (parquetExecNew_statistics demoSourceStats [1]).num_rows = demoSourceStats.num_rows ∧
    (parquetExecNew_statistics demoSourceStats [1]).total_byte_size
      = demoSourceStats.total_byte_size := by
  refine ⟨rfl, rfl, ?_, rfl, rfl⟩
  decide

/-- C2.  `build_row_group_predicate`: on a successful predicate evaluation
producing a vector of length K, `row_groups_pruned` grows by the number of
`false` entries, the error counter is unchanged, and the returned function
answers `values[i]` for every row group and every index below K; on an
evaluation error, `predicate_evaluation_errors` grows by exactly 1, the
pruned counter is unchanged, and the returned function answers `true`
everywhere. -/
theorem build_row_group_predicate_spec (pv : Except String (List Bool))
    (m : ParquetPartitionMetrics) (K : Nat) :
    (∀ values (_ : pv = .ok values) (hK : values.length = K),
      (build_row_group_predicate pv m).1.row_groups_pruned
          = m.row_groups_pruned + (values.filter (fun v => !v)).length ∧
      (build_row_group_predicate pv m).1.predicate_evaluation_errors
          = m.predicate_evaluation_errors ∧
      ∀ rg : RowGroupMetaData, ∀ i : Fin K,
        (build_row_group_predicate pv m).2 rg i.1 = values.get (Fin.cast hK.symm i)) ∧
    (∀ e, pv = .error e →
      (build_row_group_predicate pv m).1.predicate_evaluation_errors
          = m.predicate_evaluation_errors + 1 ∧
      (build_row_group_predicate pv m).1.row_groups_pruned = m.row_groups_pruned ∧
      ∀ rg : RowGroupMetaData, ∀ i : Nat,
        (build_row_group_predicate pv m).2 rg i = true) := by
  constructor
  · rintro values rfl hK
    refine ⟨rfl, rfl, fun rg i => ?_⟩
    have hi : i.1 < values.length := by rw [hK]; exact i.2
    show values.getD i.1 false = values.get (Fin.cast hK.symm i)
    rw [List.getD_eq_getElem _ _ hi]
    rfl
  · rintro e rfl
    exact ⟨rfl, rfl, fun _ _ => rfl⟩

/-- Witness for C2: a two-row-group success vector `[true, false]` on fresh
metrics prunes exactly one row group. -/
theorem build_row_group_predicate_spec_witness :
    (build_row_group_predicate (Except.ok [true, false])
        { predicate_evaluation_errors := 0, row_groups_pruned := 0 }).1.row_groups_pruned
      = 0 + 1 :=
  ((build_row_group_predicate_spec (Except.ok [true, false])
      { predicate_evaluation_errors := 0, row_groups_pruned := 0 } 2).1
    [true, false] rfl rfl).1

/-- C6 counterexample: constructing a scan from an empty file set does not
succeed — the computed chunk size is 0 and `chunks(0)` is a Rust panic
(modelled by `none`) — and `execute(0)` on a scan with zero partitions hits
the unchecked vector index, again a panic rather than any returned error. -/
theorem empty_scan_construction_counterexample :
    tryNewPartitions [] 4 = none ∧ executePartition [] 0 = none :=
  ⟨rfl, rfl⟩

/-- C6 amended: for every positive concurrency, constructing from the empty
file set panics (`none`), and `execute(i)` panics (`none`) whenever `i` is
not below the partition count; no `Internal("no such partition")` error is
produced anywhere in this path. -/
theorem empty_scan_and_oob_execute_panic (n : Nat) (hn : n ≠ 0)
    (ps : List (List String)) (i : Nat) (hi : ps.length ≤ i) :
    tryNewPartitions [] n = none ∧ executePartition ps i = none := by
  refine ⟨?_, ?_⟩
  · simp [tryNewPartitions, hn]
  · exact List.get?_eq_none.mpr hi

/-- Witness for C6 (amended): concurrency 2 on the empty file set panics,
and `execute 3` on a one-partition scan panics. -/
theorem empty_scan_and_oob_execute_panic_witness :
    tryNewPartitions [] 2 = none ∧ executePartition [["a"]] 3 = none :=
  empty_scan_and_oob_execute_panic 2 (by decide) [["a"]] 3 (by decide)

/-- C4 counterexample: with limit L = 1 and batch size B = 1 (every batch of
every file carries at most one row), a two-partition scan delivers 2 rows in
total, exceeding L + B − 1 = 1; and even a single partition given limit
L = 0 delivers a full batch, exceeding L + B − 1 = 0. -/
theorem scan_limit_total_rows_counterexample :
    scanRows [[pfOneRow], [pfOneRow]] (some 1) = 2 ∧
    ¬ scanRows [[pfOneRow], [pfOneRow]] (some 1) ≤ 1 + 1 - 1 ∧
    ([[pfOneRow], [pfOneRow]].all fun fs => fs.all (fileBounded 1)) = true ∧
    rowsOf (readFiles (some 0) [pfOneRow] 0).1 = 1 ∧
    ¬ rowsOf (readFiles (some 0) [pfOneRow] 0).1 ≤ 0 + 1 - 1 := by
  refine ⟨rfl, by decide, rfl, rfl, by decide⟩

/-- The running total returned by the batch loop equals the entry total plus
the rows of the emitted items. -/
theorem readBatches_total_eq (limit : Option Nat) (path : String) :
    ∀ (batches : List (Except String Nat)) (total : Nat),
      (readBatches limit path batches total).2.1
        = total + rowsOf (readBatches limit path batches total).1
  | [], total => by simp [readBatches, rowsOf]
  | .ok b :: rest, total => by
    by_cases h : limitReached limit (total + b) = true
    · simp [readBatches, h, rowsOf, StreamItem.rows]
    · have ih := readBatches_total_eq limit path rest (total + b)
      simp only [readBatches, h, if_false, Bool.false_eq_true]
      simp [rowsOf, StreamItem.rows] at ih ⊢
      omega
  | .error e :: rest, total => by simp [readBatches, rowsOf, StreamItem.rows]

/-- If the batch loop runs to completion without hitting the limit, the
final total is still below the limit. -/
theorem readBatches_done_lt (L : Nat) (path : String) :
    ∀ (batches : List (Except String Nat)) (total : Nat), total < L →
      (readBatches (some L) path batches total).2.2 = .done →
      (readBatches (some L) path batches total).2.1 < L
  | [], total, ht, _ => ht
  | .ok b :: rest, total, ht, hdone => by
    by_cases h : limitReached (some L) (total + b) = true
    · simp [readBatches, h] at hdone
    · have hlt : total + b < L := by
        simp [limitReached] at h; omega
      have ih := readBatches_done_lt L path rest (total + b) hlt
      simp only [readBatches, h, if_false, Bool.false_eq_true] at hdone ⊢
      exact ih hdone
  | .error e :: rest, total, ht, hdone => by simp [readBatches] at hdone

/-- Bound on the final total of the batch loop: at most `L - 1 + B` when the
entry total is below the limit `L` and each decoded batch has at most `B`
rows. -/
theorem readBatches_total_le (L B : Nat) (path : String) :
    ∀ (batches : List (Except String Nat)) (total : Nat), total < L →
      batches.all (batchOk B) = true →
      (readBatches (some L) path batches total).2.1 ≤ L - 1 + B
  | [], total, ht, _ => by simp [readBatches]; omega
  | .ok b :: rest, total, ht, hb => by
    have hball : b ≤ B ∧ rest.all (batchOk B) = true := by
      rw [List.all_cons, Bool.and_eq_true] at hb
      exact ⟨of_decide_eq_true hb.1, hb.2⟩
    by_cases h : limitReached (some L) (total + b) = true
    · simp [readBatches, h]; omega
    · have hlt : total + b < L := by
        simp [limitReached] at h; omega
      have ih := readBatches_total_le L B path rest (total + b) hlt hball.2
      simp only [readBatches, h, if_false, Bool.false_eq_true] at ih ⊢
      exact ih
  | .error e :: rest, total, ht, _ => by simp [readBatches]; omega

theorem rowsOf_append (l1 l2 : List StreamItem) :
    rowsOf (l1 ++ l2) = rowsOf l1 + rowsOf l2 := by
  simp [rowsOf]

/-- Rows emitted by the file loop, counted from an entry total below the
limit, keep the final total within `L - 1 + B`. -/
theorem readFiles_rows_le (L B : Nat) :
    ∀ (files : List PFile) (total : Nat), total < L →
      files.all (fileBounded B) = true →
      total + rowsOf (readFiles (some L) files total).1 ≤ L - 1 + B
  | [], total, ht, _ => by simp [readFiles, rowsOf]; omega
  | f :: rest, total, ht, hb => by
    have hb1 : fileBounded B f = true ∧ rest.all (fileBounded B) = true := by
      rw [List.all_cons, Bool.and_eq_true] at hb
      exact hb
    cases hfo : f.openResult with
    | error e => simp [readFiles, hfo, rowsOf]; omega
    | ok batches =>
      have hball : batches.all (batchOk B) = true := by
        have := hb1.1; rw [fileBounded, hfo] at this; exact this
      have htot := readBatches_total_eq (some L) f.path batches total
      have hle := readBatches_total_le L B f.path batches total ht hball
      rcases hrb : readBatches (some L) f.path batches total with ⟨items, total', o⟩
      rw [hrb] at htot hle
      simp only at htot hle
      cases o with
      | done =>
        have hlt := readBatches_done_lt L f.path batches total ht (by rw [hrb])
        rw [hrb] at hlt; simp only at hlt
        have ih := readFiles_rows_le L B rest total' hlt hb1.2
        simp only [readFiles, hfo, hrb, rowsOf_append]
        omega
      | limitHit =>
        simp only [readFiles, hfo, hrb]
        omega
      | failed m =>
        simp only [readFiles, hfo, hrb]
        omega

/-- C4 amended: with a positive limit `L` and batches of at most `B` rows,
each partition worker delivers at most `L + B − 1` rows before its stream
ends (the bound holds per partition, not summed across partitions). -/
theorem read_files_limit_per_partition_bound (L B : Nat) (hL : 1 ≤ L)
    (files : List PFile) (hB : files.all (fileBounded B) = true) :
    rowsOf (readFiles (some L) files 0).1 ≤ L + B - 1 := by
  have h := readFiles_rows_le L B files 0 (by omega) hB
  omega

/-- Witness for C4 (amended): a one-batch partition under limit 5 and batch
bound 2 stays within 6 rows. -/
theorem read_files_limit_per_partition_bound_witness :
    rowsOf (readFiles (some 5) [pfOneRow] 0).1 ≤ 5 + 2 - 1 :=
  read_files_limit_per_partition_bound 5 2 (by decide) [pfOneRow] (by decide)

/-- C5 counterexample: a partition whose single file fails to open
terminates its worker with that error, yet the stream carries no item at
all — the open error is never delivered as an `Err` stream item. -/
theorem open_error_not_delivered_counterexample :
    (readFiles none [pfOpenErr] 0).2 = .error "open failed" ∧
    (readFiles none [pfOpenErr] 0).1 = [] :=
  ⟨rfl, rfl⟩

/-- Shape of the batch-loop emissions: every item before the last is a
decoded batch, a failed outcome puts its wrapped error last, and a
non-failed outcome emits only decoded batches. -/
theorem readBatches_shape (limit : Option Nat) (path : String) :
    ∀ (batches : List (Except String Nat)) (total : Nat),
      (∀ it ∈ (readBatches limit path batches total).1.dropLast, ∃ n, it = .ok n) ∧
      (∀ m, (readBatches limit path batches total).2.2 = .failed m →
        (readBatches limit path batches total).1.getLast? = some (.err m)) ∧
      ((∀ m, (readBatches limit path batches total).2.2 ≠ .failed m) →
        ∀ it ∈ (readBatches limit path batches total).1, ∃ n, it = .ok n)
  | [], total => by
    refine ⟨by simp [readBatches], by simp [readBatches], by simp [readBatches]⟩
  | .ok b :: rest, total => by
    by_cases h : limitReached limit (total + b) = true
    · refine ⟨?_, ?_, ?_⟩ <;> simp [readBatches, h]
    · have ih := readBatches_shape limit path rest (total + b)
      rcases hr : readBatches limit path rest (total + b) with ⟨items, total', o⟩
      rw [hr] at ih
      simp only at ih
      simp only [readBatches, h, if_false, Bool.false_eq_true, hr]
      refine ⟨?_, ?_, ?_⟩
      · intro it hit
        cases items with
        | nil => simp at hit
        | cons x xs =>
          rw [List.dropLast_cons_of_ne_nil (by simp)] at hit
          rcases List.mem_cons.mp hit with h1 | h1
          · exact ⟨b, h1⟩
          · exact ih.1 it h1
      · intro m hm
        have hlast := ih.2.1 m hm
        have hne : items ≠ [] := by
          intro hnil; rw [hnil] at hlast; simp at hlast
        have hsplit : StreamItem.ok b :: items = [StreamItem.ok b] ++ items := rfl
        rw [hsplit, List.getLast?_append_of_ne_nil _ hne]
        exact hlast
      · intro hnf it hit
        rcases List.mem_cons.mp hit with h1 | h1
        · exact ⟨b, h1⟩
        · exact ih.2.2 hnf it h1
  | .error e :: rest, total => by
    refine ⟨by simp [readBatches], ?_, ?_⟩
    · intro m hm
      simp [readBatches] at hm ⊢
      exact hm
    · intro hnf
      exact absurd
        (show (readBatches limit path (.error e :: rest) total).2.2
            = .failed (batchErrMsg path e) by simp [readBatches])
        (hnf _)

/-- When every file of the partition opens, a worker failure is a batch
decode failure: the error is the last stream item and everything before it
is a decoded batch. -/
theorem readFiles_error_shape (limit : Option Nat) :
    ∀ (files : List PFile) (total : Nat), opensOk files = true →
      ∀ m, (readFiles limit files total).2 = .error m →
        (readFiles limit files total).1.getLast? = some (.err m) ∧
        ∀ it ∈ (readFiles limit files total).1.dropLast, ∃ n, it = .ok n
  | [], total, _, m, hm => by simp [readFiles] at hm
  | f :: rest, total, ho, m, hm => by
    have ho' : f.openResult.isOk = true ∧ opensOk rest = true := by
      rw [opensOk, List.all_cons, Bool.and_eq_true] at ho
      exact ⟨ho.1, ho.2⟩
    cases hfo : f.openResult with
    | error e =>
      rw [hfo] at ho'
      exact (Bool.false_ne_true ho'.1).elim
    | ok batches =>
      have hshape := readBatches_shape limit f.path batches total
      rcases hrb : readBatches limit f.path batches total with ⟨items, total', o⟩
      rw [hrb] at hshape
      simp only at hshape
      cases o with
      | done =>
        simp only [readFiles, hfo, hrb] at hm ⊢
        have ih := readFiles_error_shape limit rest total' ho'.2 m hm
        have hne : (readFiles limit rest total').1 ≠ [] := by
          intro hnil
          have h1 := ih.1
          rw [hnil] at h1
          simp at h1
        constructor
        · rw [List.getLast?_append_of_ne_nil _ hne]
          exact ih.1
        · rw [List.dropLast_append_of_ne_nil _ hne]
          intro it hit
          rcases List.mem_append.mp hit with h1 | h1
          · exact hshape.2.2 (by intro m'; simp) it h1
          · exact ih.2 it h1
      | limitHit =>
        simp only [readFiles, hfo, hrb] at hm
        exact absurd hm (by simp)
      | failed m' =>
        simp only [readFiles, hfo, hrb, Except.error.injEq] at hm ⊢
        subst hm
        exact ⟨hshape.2.1 m' rfl, hshape.1⟩

/-- C5 amended: a batch decode error is delivered as the final `Err` stream
item, preceded only by decoded batches; a failure to open a file, by
contrast, terminates the worker without delivering any error item
(see the counterexample). -/
theorem read_files_batch_error_is_terminal (limit : Option Nat)
    (files : List PFile) (ho : opensOk files = true) (m : String)
    (he : (readFiles limit files 0).2 = .error m) :
    (readFiles limit files 0).1.getLast? = some (.err m) ∧
    ∀ it ∈ (readFiles limit files 0).1.dropLast, ∃ n, it = .ok n :=
  readFiles_error_shape limit files 0 ho m he

/-- Witness for C5 (amended): a good two-row batch followed by a decode
error yields a stream whose final item is the wrapped error. -/
theorem read_files_batch_error_is_terminal_witness :
    (readFiles none [pfBadBatch] 0).1.getLast?
      = some (.err (batchErrMsg "p" "bad")) :=
  (read_files_batch_error_is_terminal none [pfBadBatch] (by decide)
    (batchErrMsg "p" "bad") (by decide)).1

/-- The flight frames of one batch, as mandated by the wire framing: its
dictionary frames then exactly one record-batch frame. -/
def batchFrames (b : FlightRecordBatch) : List FlightData :=
  b.dictPayloads.map FlightData.dictMsg ++ [FlightData.batchMsg b.payload]

/-- Frames and outcome of the batch loop of `stream_flight_data`: the frames
are exactly the per-batch frames of the batches before the first decode
error, none of them is a schema frame, and the loop succeeds exactly when
every batch decodes. -/
theorem streamBatchFrames_spec :
    ∀ (l : List (Except String FlightRecordBatch)),
      (streamBatchFrames l).1 = (okBatches l).flatMap batchFrames ∧
      ((streamBatchFrames l).2 = Except.ok () ↔ ∀ b ∈ l, b.isOk = true) ∧
      (∀ fr ∈ (streamBatchFrames l).1, fr.isSchemaMsg = false)
  | [] => by
    refine ⟨by simp [streamBatchFrames, okBatches], by simp [streamBatchFrames], ?_⟩
    simp [streamBatchFrames]
  | .ok b :: rest => by
    have ih := streamBatchFrames_spec rest
    have hok : okBatches (.ok b :: rest) = b :: okBatches rest := by
      simp [okBatches, List.takeWhile_cons, Except.isOk, Except.toBool, Except.toOption]
    refine ⟨?_, ?_, ?_⟩
    · simp only [streamBatchFrames, hok, List.flatMap_cons, ih.1]
      simp [create_flight_iter, serialize_batch, batchFrames]
    · simp only [streamBatchFrames]
      rw [ih.2.1]
      simp [Except.isOk, Except.toBool]
    · intro fr hfr
      simp only [streamBatchFrames] at hfr
      rcases List.mem_append.mp hfr with h1 | h1
      · simp [create_flight_iter, serialize_batch] at h1
        rcases h1 with ⟨d, _, h1⟩ | h1
        · rw [← h1]; rfl
        · rw [h1]; rfl
      · exact ih.2.2 fr h1
  | .error e :: rest => by
    refine ⟨by simp [streamBatchFrames, okBatches, Except.isOk, Except.toBool], ?_, ?_⟩
    · simp only [streamBatchFrames]
      constructor
      · intro h
        exact absurd h (by simp)
      · intro h
        have := h (.error e) (by simp)
        simp [Except.isOk, Except.toBool] at this
    · simp [streamBatchFrames]

/-- C10.  For a partition file that opened and parsed, `do_get` delivers
exactly one schema frame first; the frames after it are, for each batch of
the file up to the first decode error, that batch's dictionary frames
followed by exactly one record-batch frame, with no further schema frame;
and the stream ends cleanly exactly when every batch of the file decodes. -/
theorem stream_flight_data_spec (file : IpcFile) :
    (stream_flight_data file).1
        = FlightData.schemaMsg file.schema :: (okBatches file.batches).flatMap batchFrames ∧
    (∀ fr ∈ (stream_flight_data file).1.tail, fr.isSchemaMsg = false) ∧
    ((stream_flight_data file).2 = Except.ok () ↔ ∀ b ∈ file.batches, b.isOk = true) := by
  have h := streamBatchFrames_spec file.batches
  refine ⟨?_, ?_, ?_⟩
  · simp only [stream_flight_data, h.1]
  · simp only [stream_flight_data, List.tail_cons]
    exact h.2.2
  · exact h.2.1

/-- Witness for C10: a file with one two-dictionary batch followed by a
decode error streams the schema frame, the two dictionary frames and the
batch frame, then stops. -/
theorem stream_flight_data_spec_witness :
    (stream_flight_data
        { schema := 7,
          batches := [.ok { numRows := 3, dictPayloads := [4, 5], payload := 6 },
                      .error "broken"] }).1
      = FlightData.schemaMsg 7 ::
          (okBatches [Except.ok { numRows := 3, dictPayloads := [4, 5], payload := 6 },
                      Except.error "broken"]).flatMap batchFrames :=
  (stream_flight_data_spec
    { schema := 7,
      batches := [.ok { numRows := 3, dictPayloads := [4, 5], payload := 6 },
                  .error "broken"] }).1

theorem chunksList_nil (k : Nat) : chunksList k ([] : List α) = [] := rfl

/-- The fuel of `chunksGo` is irrelevant once it covers the list length. -/
theorem chunksGo_fuel_irrel (k : Nat) (hk : k ≠ 0) :
    ∀ (fuel₁ fuel₂ : Nat) (l : List α), l.length ≤ fuel₁ → l.length ≤ fuel₂ →
      chunksGo k fuel₁ l = chunksGo k fuel₂ l
  | 0, fuel₂, l, h₁, _ => by
    have : l = [] := List.eq_nil_of_length_eq_zero (Nat.le_zero.mp h₁)
    subst this
    cases fuel₂ <;> rfl
  | fuel₁ + 1, fuel₂, [], _, _ => by cases fuel₂ <;> rfl
  | fuel₁ + 1, fuel₂, a :: l, h₁, h₂ => by
    cases fuel₂ with
    | zero => simp at h₂
    | succ f₂ =>
      simp only [chunksGo]
      congr 1
      have hk1 : 1 ≤ k := Nat.one_le_iff_ne_zero.mpr hk
      have hd : ((a :: l).drop k).length ≤ fuel₁ := by
        simp only [List.length_drop, List.length_cons]
        simp only [List.length_cons] at h₁
        omega
      have hd₂ : ((a :: l).drop k).length ≤ f₂ := by
        simp only [List.length_drop, List.length_cons]
        simp only [List.length_cons] at h₂
        omega
      exact chunksGo_fuel_irrel k hk fuel₁ f₂ _ hd hd₂

/-- Unfolding equation of `chunksList` on a nonempty list with a nonzero
chunk size. -/
theorem chunksList_cons (k : Nat) (hk : k ≠ 0) (l : List α) (hl : l ≠ []) :
    chunksList k l = l.take k :: chunksList k (l.drop k) := by
  obtain ⟨a, l', rfl⟩ := List.exists_cons_of_ne_nil hl
  show chunksGo k (l'.length + 1) (a :: l') = _
  simp only [chunksGo]
  congr 1
  refine chunksGo_fuel_irrel k hk l'.length _ _ ?_ le_rfl
  simp only [List.length_drop, List.length_cons]
  have hk1 : 1 ≤ k := Nat.one_le_iff_ne_zero.mpr hk
  omega

/-- The chunks concatenate back to the original list. -/
theorem chunksList_join (k : Nat) (hk : k ≠ 0) (l : List α) :
    (chunksList k l).flatten = l := by
  rcases eq_or_ne l [] with rfl | hl
  · rfl
  · rw [chunksList_cons k hk l hl, List.flatten_cons,
      chunksList_join k hk (l.drop k), List.take_append_drop]
termination_by l.length
decreasing_by
  simp only [List.length_drop]
  have h1 : 0 < l.length := List.length_pos.mpr hl
  have hk1 : 1 ≤ k := Nat.one_le_iff_ne_zero.mpr hk
  omega

/-- Every chunk is nonempty and no longer than the chunk size. -/
theorem chunksList_sizes (k : Nat) (hk : k ≠ 0) (l : List α) :
    ∀ c ∈ chunksList k l, c ≠ [] ∧ c.length ≤ k := by
  rcases eq_or_ne l [] with rfl | hl
  · intro c hc
    rw [chunksList_nil] at hc
    simp at hc
  · rw [chunksList_cons k hk l hl]
    intro c hc
    rcases List.mem_cons.mp hc with rfl | hc
    · refine ⟨?_, List.length_take_le k l⟩
      apply List.ne_nil_of_length_pos
      simp only [List.length_take]
      have h1 : 0 < l.length := List.length_pos.mpr hl
      have hk1 : 1 ≤ k := Nat.one_le_iff_ne_zero.mpr hk
      omega
    · exact chunksList_sizes k hk (l.drop k) c hc
termination_by l.length
decreasing_by
  simp only [List.length_drop]
  have h1 : 0 < l.length := List.length_pos.mpr hl
  have hk1 : 1 ≤ k := Nat.one_le_iff_ne_zero.mpr hk
  omega

/-- Every chunk except possibly the last has length exactly the chunk
size. -/
theorem chunksList_dropLast_length (k : Nat) (hk : k ≠ 0) (l : List α) :
    ∀ c ∈ (chunksList k l).dropLast, c.length = k := by
  rcases eq_or_ne l [] with rfl | hl
  · intro c hc
    rw [chunksList_nil] at hc
    simp at hc
  · rw [chunksList_cons k hk l hl]
    by_cases hd : l.drop k = []
    · rw [hd, chunksList_nil]
      intro c hc
      simp at hc
    · have hne : chunksList k (l.drop k) ≠ [] := by
        rw [chunksList_cons k hk _ hd]
        simp
      rw [List.dropLast_cons_of_ne_nil hne]
      intro c hc
      rcases List.mem_cons.mp hc with rfl | hc
      · have hklen : k < l.length := by
          by_contra hcon
          push_neg at hcon
          exact hd (List.drop_eq_nil_of_le hcon)
        simp only [List.length_take]
        omega
      · exact chunksList_dropLast_length k hk (l.drop k) c hc
termination_by l.length
decreasing_by
  simp only [List.length_drop]
  have h1 : 0 < l.length := List.length_pos.mpr hl
  have hk1 : 1 ≤ k := Nat.one_le_iff_ne_zero.mpr hk
  omega

/-- Chunking with size 1 yields the singleton decomposition. -/
theorem chunksList_one (l : List α) :
    chunksList 1 l = l.map (fun a => [a]) := by
  rcases eq_or_ne l [] with rfl | hl
  · rfl
  · rw [chunksList_cons 1 (by decide) l hl, chunksList_one (l.drop 1)]
    obtain ⟨a, l', rfl⟩ := List.exists_cons_of_ne_nil hl
    simp
termination_by l.length
decreasing_by
  simp only [List.length_drop]
  have h1 : 0 < l.length := List.length_pos.mpr hl
  omega

/-- The source's chunk-size formula equals the ceiling of `len / n`. -/
theorem rust_chunk_size_eq_ceil (len n : Nat) (hn : n ≠ 0) :
    len / n + (if len % n > 0 then 1 else 0) = (len + n - 1) / n := by
  have hpos : 0 < n := Nat.pos_of_ne_zero hn
  have hq := Nat.div_add_mod len n
  have hr : len % n < n := Nat.mod_lt _ hpos
  rcases Nat.eq_zero_or_pos (len % n) with h | h
  · have hif : (if len % n > 0 then 1 else 0) = 0 := if_neg (by omega)
    have hsplit : len + n - 1 = n * (len / n) + (n - 1) := by omega
    have h1 : (len + n - 1) / n = len / n + (n - 1) / n := by
      rw [hsplit, Nat.mul_add_div hpos]
    have h2 : (n - 1) / n = 0 := Nat.div_eq_of_lt (by omega)
    omega
  · have hif : (if len % n > 0 then 1 else 0) = 1 := if_pos h
    have hsplit : len + n - 1 = n * (len / n + 1) + (len % n - 1) := by
      rw [Nat.mul_add, Nat.mul_one]
      omega
    have h1 : (len + n - 1) / n = len / n + 1 + (len % n - 1) / n := by
      rw [hsplit, Nat.mul_add_div hpos]
    have h2 : (len % n - 1) / n = 0 := Nat.div_eq_of_lt (by omega)
    omega

/-- C3.  For a nonempty file list and positive concurrency, `split_files`
succeeds and splits into contiguous chunks of the ceiling size
`⌈files/n⌉`: the chunks concatenate to the input (hence are pairwise
disjoint position-wise), none is empty, all have length at most the chunk
size and all but the last exactly the chunk size; with fewer files than
the concurrency the result is one singleton partition per file; and the
boundary examples on five files with n = 1, 2, 5, 123 hold. -/
theorem split_files_spec (files : List String) (n : Nat)
    (hf : files ≠ []) (hn : n ≠ 0) :
    ∃ cs, split_files files n = some cs ∧
      cs.flatten = files ∧
      (∀ c ∈ cs, c ≠ [] ∧ c.length ≤ (files.length + n - 1) / n) ∧
      (∀ c ∈ cs.dropLast, c.length = (files.length + n - 1) / n) ∧
      (files.length < n → cs.length = files.length ∧ ∀ c ∈ cs, c.length = 1) ∧
      split_files demo5 1 = some [["a", "b", "c", "d", "e"]] ∧
      split_files demo5 2 = some [["a", "b", "c"], ["d", "e"]] ∧
      split_files demo5 5 = some [["a"], ["b"], ["c"], ["d"], ["e"]] ∧
      split_files demo5 123 = some [["a"], ["b"], ["c"], ["d"], ["e"]] := by
  have hpos : 0 < n := Nat.pos_of_ne_zero hn
  have hlen : 0 < files.length := List.length_pos.mpr hf
  set K := files.length / n + (if files.length % n > 0 then 1 else 0) with hK
  clear_value K
  have hKne : K ≠ 0 := by
    rcases Nat.eq_zero_or_pos (files.length % n) with h | h
    · have hdvd := Nat.dvd_of_mod_eq_zero h
      have hdiv : 0 < files.length / n := Nat.div_pos (Nat.le_of_dvd hlen hdvd) hpos
      have hif : (if files.length % n > 0 then 1 else 0) = 0 := if_neg (by omega)
      have hK' := hK
      rw [hif, Nat.add_zero] at hK'
      rw [hK']
      exact Nat.pos_iff_ne_zero.mp hdiv
    · have hif : (if files.length % n > 0 then 1 else 0) = 1 := if_pos h
      have hK' := hK
      rw [hif] at hK'
      rw [hK']
      exact Nat.succ_ne_zero _
  have hceil : K = (files.length + n - 1) / n := by
    rw [hK]
    exact rust_chunk_size_eq_ceil files.length n hn
  have heq : split_files files n = some (chunksList K files) := by
    rw [split_files, if_neg hn]
    simp only [← hK]
    rw [if_neg hKne]
  refine ⟨chunksList K files, heq, chunksList_join K hKne files, ?_, ?_, ?_,
    rfl, rfl, rfl, rfl⟩
  · intro c hc
    have h := chunksList_sizes K hKne files c hc
    exact ⟨h.1, hceil ▸ h.2⟩
  · intro c hc
    have h := chunksList_dropLast_length K hKne files c hc
    exact hceil ▸ h
  · intro hlt
    have hdiv : files.length / n = 0 := Nat.div_eq_of_lt hlt
    have hmod : files.length % n = files.length := Nat.mod_eq_of_lt hlt
    have hK1 : K = 1 := by
      have hif : (if files.length % n > 0 then 1 else 0) = 1 := by
        rw [hmod]
        exact if_pos hlen
      rw [hK, hdiv, hif]
    rw [hK1, chunksList_one]
    constructor
    · simp
    · intro c hc
      rcases List.mem_map.mp hc with ⟨a, _, rfl⟩
      rfl

/-- Witness for C3: splitting the five demo files over concurrency 2. -/
theorem split_files_spec_witness :
    ∃ cs, split_files demo5 2 = some cs ∧ cs.flatten = demo5 :=
  match split_files_spec demo5 2 (by decide) (by decide) with
  | ⟨cs, h1, h2, _⟩ => ⟨cs, h1, h2⟩

mutual
/-- On a subtree of UTF-8 names the walk either succeeds with exactly the
matching files (when root and directories are readable) or fails with the
IO error (when some reachable one is not). -/
theorem listAllFiles_utf8_cases (ext : List Char) :
    ∀ (t : FsTree) (path : List Char), subUtf8 t = true →
      (listAllFiles ext t path = .ok (matchingFiles ext t path) ∧ ioClean t = true) ∨
      (listAllFiles ext t path = .error .ioErr ∧ ioClean t = false)
  | .file nm u r, path, _ => by
    cases r with
    | false =>
      right
      exact ⟨by simp [listAllFiles], by simp [ioClean]⟩
    | true =>
      left
      refine ⟨?_, by simp [ioClean]⟩
      by_cases hs : ext.isSuffixOf path = true <;>
        simp [listAllFiles, matchingFiles, hs]
  | .dir nm u r es, path, hutf => by
    simp only [subUtf8] at hutf
    cases r with
    | false =>
      right
      exact ⟨by simp [listAllFiles], by simp [ioClean]⟩
    | true =>
      rcases listDirEntries_utf8_cases ext es path hutf with ⟨h1, h2⟩ | ⟨h1, h2⟩
      · left
        exact ⟨by simp [listAllFiles, matchingFiles, h1], by simp [ioClean, h2]⟩
      · right
        exact ⟨by simp [listAllFiles, h1], by simp [ioClean, h2]⟩

/-- Forest version of `listAllFiles_utf8_cases`. -/
theorem listDirEntries_utf8_cases (ext : List Char) :
    ∀ (es : FsForest) (path : List Char), subUtf8F es = true →
      (listDirEntries ext es path = .ok (matchingForest ext es path) ∧
        ioCleanF es = true) ∨
      (listDirEntries ext es path = .error .ioErr ∧ ioCleanF es = false)
  | .nil, _, _ => .inl ⟨by simp [listDirEntries, matchingForest], by simp [ioCleanF]⟩
  | .cons e rest, path, hutf => by
    simp only [subUtf8F, Bool.and_eq_true] at hutf
    obtain ⟨⟨hu, hsub⟩, hrest⟩ := hutf
    cases e with
    | file nm u r =>
      have hr := listDirEntries_utf8_cases ext rest path hrest
      rw [FsTree.utf8Of] at hu
      subst hu
      by_cases hs : ext.isSuffixOf (path ++ '/' :: nm) = true
      · rcases hr with ⟨h1, h2⟩ | ⟨h1, h2⟩
        · exact .inl ⟨by simp [listDirEntries, FsTree.utf8Of, FsTree.nameOf, hs,
            h1, Except.map, matchingForest, matchingFiles],
            by simpa [ioCleanF] using h2⟩
        · exact .inr ⟨by simp [listDirEntries, FsTree.utf8Of, FsTree.nameOf, hs,
            h1, Except.map], by simpa [ioCleanF] using h2⟩
      · rcases hr with ⟨h1, h2⟩ | ⟨h1, h2⟩
        · exact .inl ⟨by simp [listDirEntries, FsTree.utf8Of, FsTree.nameOf, hs,
            h1, matchingForest, matchingFiles],
            by simpa [ioCleanF] using h2⟩
        · exact .inr ⟨by simp [listDirEntries, FsTree.utf8Of, FsTree.nameOf, hs,
            h1], by simpa [ioCleanF] using h2⟩
    | dir nm u r es' =>
      rw [FsTree.utf8Of] at hu
      subst hu
      have he := listAllFiles_utf8_cases ext (.dir nm true r es')
        (path ++ '/' :: FsTree.nameOf (.dir nm true r es')) hsub
      rcases he with ⟨h1, h2⟩ | ⟨h1, h2⟩
      · rcases listDirEntries_utf8_cases ext rest path hrest with ⟨h3, h4⟩ | ⟨h3, h4⟩
        · exact .inl ⟨by simp [listDirEntries, FsTree.utf8Of, h1, h3,
            Except.map, matchingForest], by simp [ioCleanF, h2, h4]⟩
        · exact .inr ⟨by simp [listDirEntries, FsTree.utf8Of, h1, h3,
            Except.map], by simp [ioCleanF, h2, h4]⟩
      · exact .inr ⟨by simp [listDirEntries, FsTree.utf8Of, h1],
          by simp [ioCleanF, h2]⟩
end

mutual
/-- On a subtree whose root and directories are all readable the walk
either succeeds with exactly the matching files (when every nested name is
UTF-8) or fails with `InvalidPath` (when some name below is not). -/
theorem listAllFiles_readable_cases (ext : List Char) :
    ∀ (t : FsTree) (path : List Char), ioClean t = true →
      (listAllFiles ext t path = .ok (matchingFiles ext t path) ∧
        subUtf8 t = true) ∨
      (listAllFiles ext t path = .error .invalidPath ∧ subUtf8 t = false)
  | .file nm u r, path, hio => by
    rw [ioClean] at hio
    left
    refine ⟨?_, by simp [subUtf8]⟩
    by_cases hs : ext.isSuffixOf path = true <;>
      simp [listAllFiles, matchingFiles, hio, hs]
  | .dir nm u r es, path, hio => by
    rw [ioClean, Bool.and_eq_true] at hio
    rcases listDirEntries_readable_cases ext es path hio.2 with ⟨h1, h2⟩ | ⟨h1, h2⟩
    · exact .inl ⟨by simp [listAllFiles, matchingFiles, hio.1, h1],
        by simpa [subUtf8] using h2⟩
    · exact .inr ⟨by simp [listAllFiles, hio.1, h1], by simpa [subUtf8] using h2⟩

/-- Forest version of `listAllFiles_readable_cases`. -/
theorem listDirEntries_readable_cases (ext : List Char) :
    ∀ (es : FsForest) (path : List Char), ioCleanF es = true →
      (listDirEntries ext es path = .ok (matchingForest ext es path) ∧
        subUtf8F es = true) ∨
      (listDirEntries ext es path = .error .invalidPath ∧ subUtf8F es = false)
  | .nil, _, _ => .inl ⟨by simp [listDirEntries, matchingForest], by simp [subUtf8F]⟩
  | .cons e rest, path, hio => by
    cases e with
    | file nm u r =>
      rw [ioCleanF] at hio
      cases u with
      | false =>
        exact .inr ⟨by simp [listDirEntries, FsTree.utf8Of],
          by simp [subUtf8F, FsTree.utf8Of]⟩
      | true =>
        have hr := listDirEntries_readable_cases ext rest path hio
        by_cases hs : ext.isSuffixOf (path ++ '/' :: nm) = true
        · rcases hr with ⟨h1, h2⟩ | ⟨h1, h2⟩
          · exact .inl ⟨by simp [listDirEntries, FsTree.utf8Of, FsTree.nameOf, hs,
              h1, Except.map, matchingForest, matchingFiles],
              by simp [subUtf8F, FsTree.utf8Of, subUtf8, h2]⟩
          · exact .inr ⟨by simp [listDirEntries, FsTree.utf8Of, FsTree.nameOf, hs,
              h1, Except.map], by simp [subUtf8F, FsTree.utf8Of, h2]⟩
        · rcases hr with ⟨h1, h2⟩ | ⟨h1, h2⟩
          · exact .inl ⟨by simp [listDirEntries, FsTree.utf8Of, FsTree.nameOf, hs,
              h1, matchingForest, matchingFiles],
              by simp [subUtf8F, FsTree.utf8Of, subUtf8, h2]⟩
          · exact .inr ⟨by simp [listDirEntries, FsTree.utf8Of, FsTree.nameOf, hs,
              h1], by simp [subUtf8F, FsTree.utf8Of, h2]⟩
    | dir nm u r es' =>
      rw [ioCleanF, Bool.and_eq_true] at hio
      cases u with
      | false =>
        exact .inr ⟨by simp [listDirEntries, FsTree.utf8Of],
          by simp [subUtf8F, FsTree.utf8Of]⟩
      | true =>
        have he := listAllFiles_readable_cases ext (.dir nm true r es')
          (path ++ '/' :: FsTree.nameOf (.dir nm true r es')) hio.1
        rcases he with ⟨h1, h2⟩ | ⟨h1, h2⟩
        · rcases listDirEntries_readable_cases ext rest path hio.2 with
            ⟨h3, h4⟩ | ⟨h3, h4⟩
          · exact .inl ⟨by simp [listDirEntries, FsTree.utf8Of, h1, h3,
              Except.map, matchingForest], by simp [subUtf8F, FsTree.utf8Of, h2, h4]⟩
          · exact .inr ⟨by simp [listDirEntries, FsTree.utf8Of, h1, h3,
              Except.map], by simp [subUtf8F, FsTree.utf8Of, h2, h4]⟩
        · exact .inr ⟨by simp [listDirEntries, FsTree.utf8Of, h1],
            by simp [subUtf8F, FsTree.utf8Of, h2]⟩
end

/-- C8.  `list_all_files`: on a clean subtree (readable, UTF-8 names) the
walk returns exactly the files whose path ends with the extension, in
traversal order; an unreadable root or directory makes the call fail with
the IO error; a non-UTF-8 name below a readable subtree makes it fail with
`InvalidPath`; and a root that is itself a readable regular file matching
the extension yields exactly the one-element list of its path. -/
theorem list_all_files_spec (ext : List Char) (t : FsTree) (path : List Char) :
    (ioClean t = true → subUtf8 t = true →
      listAllFiles ext t path = .ok (matchingFiles ext t path)) ∧
    (subUtf8 t = true → ioClean t = false →
      listAllFiles ext t path = .error .ioErr) ∧
    (ioClean t = true → subUtf8 t = false →
      listAllFiles ext t path = .error .invalidPath) ∧
    (∀ nm, t = .file nm true true → ext.isSuffixOf path = true →
      listAllFiles ext t path = .ok [path]) := by
  refine ⟨?_, ?_, ?_, ?_⟩
  · intro hio hutf
    rcases listAllFiles_utf8_cases ext t path hutf with ⟨h1, _⟩ | ⟨_, h2⟩
    · exact h1
    · simp [hio] at h2
  · intro hutf hio
    rcases listAllFiles_utf8_cases ext t path hutf with ⟨_, h2⟩ | ⟨h1, _⟩
    · simp [hio] at h2
    · exact h1
  · intro hio hutf
    rcases listAllFiles_readable_cases ext t path hio with ⟨_, h2⟩ | ⟨h1, _⟩
    · simp [hutf] at h2
    · exact h1
  · rintro nm rfl hs
    simp [listAllFiles, hs]

/-- Witness for C8: a readable, UTF-8 directory with one matching and one
non-matching file lists exactly its matching files. -/
theorem list_all_files_spec_witness :
    listAllFiles ['.', 'p']
        (FsTree.dir ['d'] true true
          (FsForest.cons (FsTree.file ['a', '.', 'p'] true true)
            (FsForest.cons (FsTree.file ['c', '.', 'q'] true true) FsForest.nil)))
        ['r']
      = .ok (matchingFiles ['.', 'p']
          (FsTree.dir ['d'] true true
            (FsForest.cons (FsTree.file ['a', '.', 'p'] true true)
              (FsForest.cons (FsTree.file ['c', '.', 'q'] true true) FsForest.nil)))
          ['r']) :=
  (list_all_files_spec ['.', 'p']
      (FsTree.dir ['d'] true true
        (FsForest.cons (FsTree.file ['a', '.', 'p'] true true)
          (FsForest.cons (FsTree.file ['c', '.', 'q'] true true) FsForest.nil)))
      ['r']).1
    (by simp [ioClean, ioCleanF])
    (by simp [subUtf8, subUtf8F, FsTree.utf8Of])
